import Mathlib

/-!
Verification of the Firehose flow-logs processor
(`src/SplunkFirehoseFlowlogsProcessor/app.py`) against its specification.

The Python module is embedded shallowly:
  * `processRecords`, `createReingestionRecord`, `getReingestionRecord`,
    `putRecordsToFirehoseStream` and `lambda_handler` are translated
    definition by definition;
  * the external library functions (`base64.b64decode`, `base64.b64encode`,
    `json.loads` + `['message']` extraction, `str.encode`) are collected in a
    `Codec` parameter: the processor only composes them, so every claim is
    stated uniformly in the codec;
  * the Firehose client is a `Sink` function from (stream name, attempt
    number, submitted records) to a response, `SinkResp.raise` modelling a
    raised exception and `SinkResp.ok` a normal `put_record_batch` response;
  * fallible Python code (exceptions) returns `Option`; `lambda_handler`
    returns `none` when the Python function would raise;
  * the in-place mutation of the `records` list in `lambda_handler`'s loop
    is explicit state passing of a `LoopState`.
-/

namespace FlowlogsProcessor

/-- One element of `event['records']`: only `recordId` and `data` are read by
the code (`approximateArrivalTimestamp` is never accessed). `data` is the
base64 text of the wire payload. -/
structure InputRecord where
  recordId : String
  data : String
deriving Repr, DecidableEq

/-- One element of the returned record list: `data` is optional because
`lambda_handler` executes `del(records[idx]['data'])` on dropped records. -/
structure TransformedRecord where
  recordId : String
  data : Option String
  result : String
deriving Repr, DecidableEq

/-- The external encoding/decoding capabilities used by the module.
`b64decode` models `base64.b64decode` (raising on malformed input),
`parseMessage` models `json.loads(bytes.decode('utf8'))['message']`
(raising on malformed UTF-8/JSON or a missing `message` field),
`utf8encode` models `str.encode('utf-8')` and `b64encode` models
`base64.b64encode`. Bytes are `List Nat`. -/
structure Codec where
  b64decode : String → Option (List Nat)
  b64encode : List Nat → String
  parseMessage : List Nat → Option String
  utf8encode : String → List Nat

/-- `transformLogEvent`: extract the message and append a newline
(the `log_event['message']` lookup is folded into `Codec.parseMessage`). -/
def transformLogEvent (message : String) : String :=
  message ++ "\n"

/-- The body of the `processRecords` generator for one record: decode the
base64 payload, parse it and extract the message, transform, re-encode
(`''.join` over a `str` is the identity), and tag with result `Ok`. -/
def processRecord (c : Codec) (r : InputRecord) : Option TransformedRecord := do
  let data ← c.b64decode r.data
  let message ← c.parseMessage data
  let joinedData := transformLogEvent message
  let dataBytes := c.utf8encode joinedData
  pure { recordId := r.recordId, data := some (c.b64encode dataBytes), result := "Ok" }

/-- `list(processRecords(event['records']))`: the generator consumed into a
list; the first raising record aborts the whole construction. -/
def processRecords (c : Codec) : List InputRecord → Option (List TransformedRecord)
  | [] => some []
  | r :: rest => do
    let t ← processRecord c r
    let ts ← processRecords c rest
    pure (t :: ts)

/-- `createReingestionRecord`: `{'data': base64.b64decode(originalRecord['data'])}`. -/
structure ReingestionRecord where
  data : List Nat
deriving Repr, DecidableEq

/-- `getReingestionRecord`: `{'Data': reIngestionRecord['data']}` — the shape
submitted to the Firehose client. -/
structure FirehoseRecord where
  Data : List Nat
deriving Repr, DecidableEq

def createReingestionRecord (c : Codec) (originalRecord : InputRecord) :
    Option ReingestionRecord :=
  (c.b64decode originalRecord.data).map ReingestionRecord.mk

def getReingestionRecord (reIngestionRecord : ReingestionRecord) : FirehoseRecord :=
  ⟨reIngestionRecord.data⟩

/-- A response of `client.put_record_batch`: either the call raises
(`raise msg`, modelling any `Exception`), or it returns a dict with
`FailedPutCount` and `RequestResponses`, each response optionally carrying an
`ErrorCode` (`none` = key absent). -/
inductive SinkResp where
  | raise (msg : String)
  | ok (failedPutCount : Nat) (requestResponses : List (Option String))
deriving Repr, DecidableEq

/-- The Firehose client, as a deterministic environment: the response is a
function of the stream name, the attempt number (position of the call in the
retry sequence) and the submitted records. -/
abbrev Sink (α : Type) := String → Nat → List α → SinkResp

/-- `'ErrorCode' not in res or not res['ErrorCode']` — negated: the response
carries a non-empty error code. -/
def hasErrorCode (res : Option String) : Bool :=
  match res with
  | none => false
  | some code => code != ""

/-- The `for idx, res in enumerate(response['RequestResponses'])` loop of
`putRecordsToFirehoseStream`: walk the responses positionally alongside
`records`, collecting the error codes and the records whose response carries
a non-empty `ErrorCode`, in order.  (Python would raise `IndexError` if the
response list were longer than the record list and an out-of-range response
carried a code; the sink contract gives one response per record, and the
theorems below that depend on alignment hypothesise it.) -/
def collectFailures {α : Type} : List α → List (Option String) → List String × List α
  | _, [] => ([], [])
  | [], _ :: _ => ([], [])
  | r :: rs, res :: rest =>
    let next := collectFailures rs rest
    if hasErrorCode res then (res.getD "" :: next.1, r :: next.2) else next

/-- One submission attempt of `putRecordsToFirehoseStream`: the
`try/except` around `put_record_batch` plus the partial-failure scan.
Returns `(failedRecords, errMsg)` exactly as the Python locals hold them
when control reaches `if len(failedRecords) > 0`. -/
def attemptFailed {α : Type} (sink : Sink α) (streamName : String) (attempt : Nat)
    (records : List α) : List α × String :=
  match sink streamName attempt records with
  | .raise e => (records, e)
  | .ok failedPutCount requestResponses =>
    if 0 < failedPutCount then
      let collected := collectFailures records requestResponses
      (collected.2, "Individual error codes: " ++ String.intercalate "," collected.1)
    else ([], "")

/-- `putRecordsToFirehoseStream(streamName, records, client, attemptsMade,
maxAttempts)`.  The first component counts the `put_record_batch` calls made
(the Python function is `Unit`-valued; the count is the observable sequence
of sink calls).  The second component is `none` on silent return and
`some msg` when the Python function raises `RuntimeError(msg)`. -/
def putRecordsToFirehoseStream {α : Type} (sink : Sink α) (streamName : String)
    (records : List α) (attemptsMade maxAttempts : Nat) : Nat × Option String :=
  if 0 < (attemptFailed sink streamName attemptsMade records).1.length then
    if h : attemptsMade + 1 < maxAttempts then
      ((putRecordsToFirehoseStream sink streamName
          (attemptFailed sink streamName attemptsMade records).1
          (attemptsMade + 1) maxAttempts).1 + 1,
       (putRecordsToFirehoseStream sink streamName
          (attemptFailed sink streamName attemptsMade records).1
          (attemptsMade + 1) maxAttempts).2)
    else
      (1, some ("Could not put records after " ++ toString maxAttempts ++ " attempts. "
          ++ (attemptFailed sink streamName attemptsMade records).2))
  else (1, none)
termination_by maxAttempts - attemptsMade
decreasing_by omega

/-- The records still failed after `n` further attempts, starting from
`records` at attempt number `attempt`: the sequence of arguments the
recursion of `putRecordsToFirehoseStream` passes to itself. -/
def failedChain {α : Type} (sink : Sink α) (streamName : String) :
    Nat → List α → Nat → List α
  | _, records, 0 => records
  | attempt, records, n + 1 =>
    failedChain sink streamName (attempt + 1)
      (attemptFailed sink streamName attempt records).1 n

/-- Lookup in `dataByRecordId`, a Python dict built by comprehension: a later
binding of the same key overwrites an earlier one. -/
def lookupRecordId : List (String × ReingestionRecord) → String → Option ReingestionRecord
  | [], _ => none
  | (k, v) :: rest, key =>
    match lookupRecordId rest key with
    | some r => some r
    | none => if k == key then some v else none

/-- `dataByRecordId = {rec['recordId']: createReingestionRecord(rec) for rec
in event['records']}` as an ordered association list (lookup via
`lookupRecordId` reproduces dict semantics). -/
def buildTable (c : Codec) : List InputRecord → Option (List (String × ReingestionRecord))
  | [] => some []
  | r :: rest => do
    let d ← createReingestionRecord c r
    let table ← buildTable c rest
    pure ((r.recordId, d) :: table)

/-- The mutable locals of `lambda_handler`'s size-accounting loop, plus the
`records` list being rebuilt (`out`) in place of Python's in-place mutation. -/
structure LoopState where
  projectedSize : Nat
  putRecordBatches : List (List FirehoseRecord)
  recordsToReingest : List FirehoseRecord
  totalRecordsToBeReingested : Nat
  out : List TransformedRecord
deriving Repr, DecidableEq

/-- What lines 142–143 do to a record:
`records[idx]['result'] = 'Dropped'; del(records[idx]['data'])`. -/
def dropMark (r : TransformedRecord) : TransformedRecord :=
  { r with result := "Dropped", data := none }

/-- `len(rec['data']) + len(rec['recordId'])` as read in the loop (every
record reaching the loop has its `data` present). -/
def contribution (r : TransformedRecord) : Nat :=
  (r.data.getD "").length + r.recordId.length

/-- `if len(recordsToReingest) == 500: putRecordBatches.append(...); reset` —
executed at the end of every loop iteration. -/
def flushFullBatch (s : LoopState) : LoopState :=
  if s.recordsToReingest.length = 500 then
    { s with putRecordBatches := s.putRecordBatches ++ [s.recordsToReingest],
             recordsToReingest := [] }
  else s

/-- One iteration of the `for idx, rec in enumerate(records)` loop of
`lambda_handler`: accumulate the projected size, flag the record for
re-ingestion when the running total exceeds 6,000,000 bytes (dropping its
payload and marking it `Dropped`), and flush a full 500-record group. -/
def sizeStep (table : List (String × ReingestionRecord)) (s : LoopState)
    (r : TransformedRecord) : Option LoopState := do
  let d ← r.data
  let projectedSize := s.projectedSize + (d.length + r.recordId.length)
  if 6000000 < projectedSize then
    let reingestionRecord ← lookupRecordId table r.recordId
    pure (flushFullBatch
      { projectedSize := projectedSize,
        putRecordBatches := s.putRecordBatches,
        recordsToReingest := s.recordsToReingest ++ [getReingestionRecord reingestionRecord],
        totalRecordsToBeReingested := s.totalRecordsToBeReingested + 1,
        out := s.out ++ [dropMark r] })
  else
    pure (flushFullBatch { s with projectedSize := projectedSize, out := s.out ++ [r] })

/-- The size-accounting loop, from an arbitrary starting state. -/
def runLoop (table : List (String × ReingestionRecord)) (s : LoopState) :
    List TransformedRecord → Option LoopState
  | [] => some s
  | r :: rest => do
    let s1 ← sizeStep table s r
    runLoop table s1 rest

/-- All locals start empty / zero. -/
def initialState : LoopState :=
  { projectedSize := 0, putRecordBatches := [], recordsToReingest := [],
    totalRecordsToBeReingested := 0, out := [] }

def runSizeLoop (table : List (String × ReingestionRecord))
    (records : List TransformedRecord) : Option LoopState :=
  runLoop table initialState records

/-- `if len(recordsToReingest) > 0: putRecordBatches.append(recordsToReingest)`
after the loop: the groups actually submitted. -/
def finalBatches (s : LoopState) : List (List FirehoseRecord) :=
  s.putRecordBatches ++ (if s.recordsToReingest.isEmpty then [] else [s.recordsToReingest])

/-- The `for recordBatch in putRecordBatches` delivery loop: one
`putRecordsToFirehoseStream(..., attemptsMade=0, maxAttempts=20)` call per
group, in order; a raised `RuntimeError` aborts the loop (later groups are
never attempted) and propagates out of the handler. -/
def deliverBatches (sink : Sink FirehoseRecord) (streamName : String) :
    List (List FirehoseRecord) → Option Unit
  | [] => some ()
  | batch :: rest =>
    match (putRecordsToFirehoseStream sink streamName batch 0 20).2 with
    | none => deliverBatches sink streamName rest
    | some _ => none

/-- Python `str.split(sep)` for a one-character separator, over the character
list: splitting the empty string yields `[""]`, as in Python. -/
def splitChars (sep : Char) : List Char → List (List Char)
  | [] => [[]]
  | c :: cs =>
    match splitChars sep cs with
    | [] => [[c]]
    | g :: gs => if c = sep then [] :: g :: gs else (c :: g) :: gs

/-- `streamARN.split(sep)` as a list of strings. -/
def splitOnChar (sep : Char) (s : String) : List String :=
  (splitChars sep s.toList).map (fun l => String.mk l)

/-- The handler's input event: the delivery-stream ARN and the record list. -/
structure Event where
  deliveryStreamArn : String
  records : List InputRecord
deriving Repr, DecidableEq

/-- The handler's return value: `{"records": records}`. -/
structure HandlerResult where
  records : List TransformedRecord
deriving Repr, DecidableEq

/-- `lambda_handler(event, context)`: parse region and stream name from the
ARN, transform all records, build `dataByRecordId`, run the size-accounting
loop, deliver the groups, and return the (possibly dropped-annotated) record
list.  `none` models an uncaught exception anywhere along the way. -/
def lambda_handler (c : Codec) (sink : Sink FirehoseRecord) (event : Event) :
    Option HandlerResult := do
  let _region ← (splitOnChar ':' event.deliveryStreamArn)[3]?
  let streamName ← (splitOnChar '/' event.deliveryStreamArn)[1]?
  let records ← processRecords c event.records
  let table ← buildTable c event.records
  let finalState ← runLoop table initialState records
  let _ ← deliverBatches sink streamName (finalBatches finalState)
  pure { records := finalState.out }

/-- The re-ingestion entries derived from a sequence of transformed records:
for each record, the table entry registered under its id (this is what the
loop body `getReingestionRecord(dataByRecordId[rec['recordId']])` appends,
record by record). -/
def tableEntries (table : List (String × ReingestionRecord)) :
    List TransformedRecord → Option (List FirehoseRecord)
  | [] => some []
  | r :: rest => do
    let d ← lookupRecordId table r.recordId
    let es ← tableEntries table rest
    pure (getReingestionRecord d :: es)

/-! ### Concrete fixtures (used by the witness theorems) -/

/-- A concrete codec for evaluation: `"!"` is the one undecodable payload,
an empty byte list the one unparsable message; otherwise characters are the
bytes. -/
def testCodec : Codec where
  b64decode := fun s => if s = "!" then none else some (s.toList.map Char.toNat)
  b64encode := fun bs => String.mk (bs.map Char.ofNat)
  parseMessage := fun bs => if bs = [] then none else some (String.mk (bs.map Char.ofNat))
  utf8encode := fun s => s.toList.map Char.toNat

/-- A sink that always succeeds with no failures. -/
def nullSink : Sink FirehoseRecord := fun _ _ _ => SinkResp.ok 0 []

/-- A sink whose call always raises. -/
def raiseSink : Sink FirehoseRecord := fun _ _ _ => SinkResp.raise "boom"

/-- A sink that fails exactly one of two entries on the first attempt and
succeeds afterwards. -/
def partialSink : Sink FirehoseRecord := fun _ attempt _ =>
  if attempt = 0 then SinkResp.ok 1 [some "ServiceUnavailableException", none]
  else SinkResp.ok 0 [none]

def entryA : FirehoseRecord := ⟨[1, 2]⟩
def entryB : FirehoseRecord := ⟨[3]⟩

def testEvent : Event :=
  { deliveryStreamArn := "arn:aws:firehose:us-east-1:1:deliverystream/MyStream",
    records := [{ recordId := "id1", data := "ab" }, { recordId := "id2", data := "cd" }] }

/-- An event whose second record has an undecodable payload. -/
def badEvent : Event :=
  { deliveryStreamArn := "arn:aws:firehose:us-east-1:1:deliverystream/MyStream",
    records := [{ recordId := "id1", data := "ab" }, { recordId := "id2", data := "!" }] }

def testTable : List (String × ReingestionRecord) :=
  [("id1", ⟨[97, 98]⟩), ("id2", ⟨[99, 100]⟩)]

def testTransformed : List TransformedRecord :=
  [{ recordId := "id1", data := some "ab\n", result := "Ok" },
   { recordId := "id2", data := some "cd\n", result := "Ok" }]

def testResult : HandlerResult := { records := testTransformed }

/-- The loop state after running the size-accounting loop over
`testTransformed` with `testTable` (no record crosses the ceiling). -/
def testLoopState : LoopState :=
  { projectedSize := 12, putRecordBatches := [], recordsToReingest := [],
    totalRecordsToBeReingested := 0, out := testTransformed }

/-! ### Basic lemmas about the transformer -/

theorem processRecord_spec {c : Codec} {r : InputRecord} {t : TransformedRecord}
    (h : processRecord c r = some t) :
    t.recordId = r.recordId ∧ t.result = "Ok" ∧ ∃ d, t.data = some d := by
  simp only [processRecord, bind, Option.bind_eq_some, pure] at h
  obtain ⟨data, hdata, message, hmsg, ht⟩ := h
  cases ht
  exact ⟨rfl, rfl, _, rfl⟩

theorem processRecords_spec {c : Codec} :
    ∀ {rs : List InputRecord} {ts : List TransformedRecord},
      processRecords c rs = some ts →
      ts.map TransformedRecord.recordId = rs.map InputRecord.recordId ∧
        ∀ t ∈ ts, t.result = "Ok" ∧ ∃ d, t.data = some d := by
  intro rs
  induction rs with
  | nil => intro ts h; simp [processRecords] at h; subst h; simp
  | cons r rest ih =>
    intro ts h
    simp only [processRecords, bind, Option.bind_eq_some, pure, Option.some.injEq] at h
    obtain ⟨t, ht, ts', hts', rfl⟩ := h
    obtain ⟨hid, hok, hd⟩ := processRecord_spec ht
    obtain ⟨hmap, hall⟩ := ih hts'
    refine ⟨by simp [hid, hmap], ?_⟩
    intro u hu
    rcases List.mem_cons.mp hu with rfl | hu
    · exact ⟨hok, hd⟩
    · exact hall u hu

/-- If any record of the batch fails to decode, the whole generator
consumption fails. -/
theorem processRecords_none {c : Codec} {r : InputRecord} :
    ∀ {rs : List InputRecord}, r ∈ rs → processRecord c r = none →
      processRecords c rs = none := by
  intro rs
  induction rs with
  | nil => intro h; simp at h
  | cons x rest ih =>
    intro hmem hfail
    rcases List.mem_cons.mp hmem with rfl | hmem
    · simp [processRecords, hfail]
    · cases hx : processRecord c x with
      | none => simp [processRecords, hx]
      | some t => simp [processRecords, hx, ih hmem hfail]

/-! ### Basic lemmas about the reingestion table -/

theorem buildTable_spec {c : Codec} :
    ∀ {rs : List InputRecord} {table : List (String × ReingestionRecord)},
      buildTable c rs = some table →
      List.Forall₂ (fun (r : InputRecord) (p : String × ReingestionRecord) =>
        p.1 = r.recordId ∧ c.b64decode r.data = some p.2.data) rs table := by
  intro rs
  induction rs with
  | nil => intro table h; simp [buildTable] at h; subst h; exact List.Forall₂.nil
  | cons r rest ih =>
    intro table h
    simp only [buildTable, bind, Option.bind_eq_some, pure, Option.some.injEq] at h
    obtain ⟨d, hd, table', htable', rfl⟩ := h
    simp only [createReingestionRecord, Option.map_eq_some'] at hd
    obtain ⟨bytes, hbytes, rfl⟩ := hd
    exact List.Forall₂.cons ⟨rfl, hbytes⟩ (ih htable')

theorem buildTable_keys {c : Codec} {rs : List InputRecord}
    {table : List (String × ReingestionRecord)} (h : buildTable c rs = some table) :
    table.map Prod.fst = rs.map InputRecord.recordId := by
  have h2 := buildTable_spec h
  clear h
  induction h2 with
  | nil => rfl
  | cons hrel _ ih => simp [hrel.1, ih]

theorem lookupRecordId_not_mem {key : String} :
    ∀ {table : List (String × ReingestionRecord)},
      key ∉ table.map Prod.fst → lookupRecordId table key = none := by
  intro table
  induction table with
  | nil => intro _; rfl
  | cons p rest ih =>
    obtain ⟨k, v⟩ := p
    intro h
    simp only [List.map_cons, List.mem_cons] at h
    push_neg at h
    have hk : (k == key) = false := by
      simp only [beq_eq_false_iff_ne]
      exact fun e => h.1 e.symm
    simp [lookupRecordId, ih h.2, hk]

/-- With pairwise-distinct keys, dict lookup recovers each stored binding. -/
theorem lookupRecordId_mem :
    ∀ {table : List (String × ReingestionRecord)},
      (table.map Prod.fst).Nodup →
      ∀ p ∈ table, lookupRecordId table p.1 = some p.2 := by
  intro table
  induction table with
  | nil => intro _ p hp; simp at hp
  | cons q rest ih =>
    obtain ⟨k, v⟩ := q
    intro hnd p hp
    simp only [List.map_cons, List.nodup_cons] at hnd
    rcases List.mem_cons.mp hp with rfl | hp
    · have : lookupRecordId rest k = none :=
        lookupRecordId_not_mem hnd.1
      simp [lookupRecordId, this]
    · have := ih hnd.2 p hp
      simp [lookupRecordId, this]

theorem tableEntries_of_pairs {table : List (String × ReingestionRecord)} :
    ∀ {ts : List TransformedRecord} {pairs : List (String × ReingestionRecord)},
      ts.map TransformedRecord.recordId = pairs.map Prod.fst →
      (∀ p ∈ pairs, lookupRecordId table p.1 = some p.2) →
      tableEntries table ts = some (pairs.map fun p => getReingestionRecord p.2) := by
  intro ts
  induction ts with
  | nil =>
    intro pairs hmap _
    have : pairs = [] := by
      cases pairs with
      | nil => rfl
      | cons _ _ => simp at hmap
    subst this; rfl
  | cons t rest ih =>
    intro pairs hmap hlook
    cases pairs with
    | nil => simp at hmap
    | cons p prest =>
      simp only [List.map_cons, List.cons.injEq] at hmap
      have hl := hlook p (List.mem_cons_self p prest)
      rw [← hmap.1] at hl
      have := ih hmap.2 (fun q hq => hlook q (List.mem_cons_of_mem p hq))
      simp [tableEntries, hl, this]

theorem tableEntries_length {table : List (String × ReingestionRecord)} :
    ∀ {ts : List TransformedRecord} {es : List FirehoseRecord},
      tableEntries table ts = some es → es.length = ts.length := by
  intro ts
  induction ts with
  | nil => intro es h; simp [tableEntries] at h; subst h; rfl
  | cons t rest ih =>
    intro es h
    simp only [tableEntries, bind, Option.bind_eq_some, pure, Option.some.injEq] at h
    obtain ⟨d, _, es', hes', rfl⟩ := h
    simp [ih hes']

/-! ### Lemmas about the size-accounting loop -/

theorem flushFullBatch_out (s : LoopState) : (flushFullBatch s).out = s.out := by
  unfold flushFullBatch; split <;> rfl

theorem flushFullBatch_total (s : LoopState) :
    (flushFullBatch s).totalRecordsToBeReingested = s.totalRecordsToBeReingested := by
  unfold flushFullBatch; split <;> rfl

theorem flushFullBatch_projectedSize (s : LoopState) :
    (flushFullBatch s).projectedSize = s.projectedSize := by
  unfold flushFullBatch; split <;> rfl

theorem flushFullBatch_flatten (s : LoopState) :
    (flushFullBatch s).putRecordBatches.flatten ++ (flushFullBatch s).recordsToReingest =
      s.putRecordBatches.flatten ++ s.recordsToReingest := by
  unfold flushFullBatch; split <;> simp

theorem flushFullBatch_inv {s : LoopState} (hlen : s.recordsToReingest.length ≤ 500)
    (hall : ∀ b ∈ s.putRecordBatches, b.length = 500) :
    (∀ b ∈ (flushFullBatch s).putRecordBatches, b.length = 500) ∧
      (flushFullBatch s).recordsToReingest.length < 500 := by
  unfold flushFullBatch
  split
  · rename_i h500
    constructor
    · intro b hb
      rcases List.mem_append.mp hb with hb | hb
      · exact hall b hb
      · simp only [List.mem_singleton] at hb; rw [hb]; exact h500
    · simp
  · rename_i hne
    exact ⟨hall, lt_of_le_of_ne hlen hne⟩

/-- Elimination form of one loop iteration: the record's payload is present,
and the new state is the flushed drop-branch or keep-branch state according
to whether the running total crossed the 6,000,000-byte ceiling. -/
theorem sizeStep_elim {table : List (String × ReingestionRecord)} {s s' : LoopState}
    {r : TransformedRecord} (h : sizeStep table s r = some s') :
    ∃ d, r.data = some d ∧
      ((6000000 < s.projectedSize + (d.length + r.recordId.length) ∧
        ∃ rr, lookupRecordId table r.recordId = some rr ∧
          s' = flushFullBatch
            { projectedSize := s.projectedSize + (d.length + r.recordId.length),
              putRecordBatches := s.putRecordBatches,
              recordsToReingest := s.recordsToReingest ++ [getReingestionRecord rr],
              totalRecordsToBeReingested := s.totalRecordsToBeReingested + 1,
              out := s.out ++ [dropMark r] }) ∨
       (s.projectedSize + (d.length + r.recordId.length) ≤ 6000000 ∧
        s' = flushFullBatch { s with
          projectedSize := s.projectedSize + (d.length + r.recordId.length),
          out := s.out ++ [r] })) := by
  unfold sizeStep at h
  cases hd : r.data with
  | none => rw [hd] at h; simp at h
  | some d =>
    rw [hd] at h
    refine ⟨d, rfl, ?_⟩
    simp only [bind, Option.some_bind] at h
    by_cases hceil : 6000000 < s.projectedSize + (d.length + r.recordId.length)
    · left
      rw [if_pos hceil] at h
      simp only [bind, Option.bind_eq_some, pure, Option.some.injEq] at h
      obtain ⟨rr, hrr, hs'⟩ := h
      exact ⟨hceil, rr, hrr, hs'.symm⟩
    · right
      rw [if_neg hceil] at h
      simp only [pure, Option.some.injEq] at h
      exact ⟨by omega, h.symm⟩

/-- Once the running total has crossed the ceiling, the rest of the batch is
dropped wholesale: every remaining record is marked `Dropped`, its table
entry is appended to the re-ingestion stream, and the invariants on group
sizes are maintained. -/
theorem runLoop_allDrop {table : List (String × ReingestionRecord)} :
    ∀ {l : List TransformedRecord} {s s' : LoopState},
      6000000 < s.projectedSize → runLoop table s l = some s' →
      ∃ entries, tableEntries table l = some entries ∧
        s'.out = s.out ++ l.map dropMark ∧
        s'.putRecordBatches.flatten ++ s'.recordsToReingest =
          s.putRecordBatches.flatten ++ s.recordsToReingest ++ entries ∧
        s'.totalRecordsToBeReingested = s.totalRecordsToBeReingested + l.length ∧
        (s.recordsToReingest.length < 500 →
          (∀ b ∈ s.putRecordBatches, b.length = 500) →
          (∀ b ∈ s'.putRecordBatches, b.length = 500) ∧
            s'.recordsToReingest.length < 500) := by
  intro l
  induction l with
  | nil =>
    intro s s' _ h
    simp only [runLoop, Option.some.injEq] at h
    subst h
    exact ⟨[], rfl, by simp, by simp, by simp, fun h1 h2 => ⟨h2, h1⟩⟩
  | cons r rest ih =>
    intro s s' hproj h
    simp only [runLoop, bind, Option.bind_eq_some] at h
    obtain ⟨s1, hs1, hrest⟩ := h
    obtain ⟨d, hd, hcases⟩ := sizeStep_elim hs1
    rcases hcases with ⟨_, rr, hrr, hs1eq⟩ | ⟨hle, _⟩
    · have hproj1 : 6000000 < s1.projectedSize := by
        rw [hs1eq, flushFullBatch_projectedSize]; simp; omega
      obtain ⟨entries, hte, hout, hflat, htot, hinv⟩ := ih hproj1 hrest
      rw [hs1eq, flushFullBatch_out] at hout
      rw [hs1eq, flushFullBatch_flatten] at hflat
      rw [hs1eq, flushFullBatch_total] at htot
      refine ⟨getReingestionRecord rr :: entries, ?_, ?_, ?_, ?_, ?_⟩
      · simp [tableEntries, hrr, hte]
      · rw [hout]; simp
      · rw [hflat]; simp
      · rw [htot]; simp; omega
      · intro h1 h2
        have hpre : (∀ b ∈ s1.putRecordBatches, b.length = 500) ∧
            s1.recordsToReingest.length < 500 := by
          rw [hs1eq]
          exact flushFullBatch_inv (by simp; omega) (by simpa using h2)
        exact hinv hpre.2 hpre.1
    · omega

/-- Grand structural lemma about the size-accounting loop: the processed
batch splits at a cut point `k` — the first `k` records pass through
untouched (their cumulative contribution within the ceiling), the rest are
dropped, their table entries queued for re-ingestion in order, with the
group-size invariant maintained. -/
theorem runLoop_split {table : List (String × ReingestionRecord)} :
    ∀ {l : List TransformedRecord} {s s' : LoopState},
      runLoop table s l = some s' →
      ∃ k entries, k ≤ l.length ∧
        tableEntries table (l.drop k) = some entries ∧
        s'.out = s.out ++ l.take k ++ (l.drop k).map dropMark ∧
        (k = 0 ∨ s.projectedSize + ((l.take k).map contribution).sum ≤ 6000000) ∧
        s'.putRecordBatches.flatten ++ s'.recordsToReingest =
          s.putRecordBatches.flatten ++ s.recordsToReingest ++ entries ∧
        s'.totalRecordsToBeReingested = s.totalRecordsToBeReingested + (l.length - k) ∧
        (s.recordsToReingest.length < 500 →
          (∀ b ∈ s.putRecordBatches, b.length = 500) →
          (∀ b ∈ s'.putRecordBatches, b.length = 500) ∧
            s'.recordsToReingest.length < 500) := by
  intro l
  induction l with
  | nil =>
    intro s s' h
    simp only [runLoop, Option.some.injEq] at h
    subst h
    exact ⟨0, [], by simp, rfl, by simp, Or.inl rfl, by simp, by simp, fun h1 h2 => ⟨h2, h1⟩⟩
  | cons r rest ih =>
    intro s s' h
    simp only [runLoop, bind, Option.bind_eq_some] at h
    obtain ⟨s1, hs1, hrest⟩ := h
    obtain ⟨d, hd, hcases⟩ := sizeStep_elim hs1
    rcases hcases with ⟨_, rr, hrr, hs1eq⟩ | ⟨hle, hs1eq⟩
    · -- ceiling crossed at this record: the whole remaining batch is dropped
      have hproj1 : 6000000 < s1.projectedSize := by
        rw [hs1eq, flushFullBatch_projectedSize]; simp; omega
      obtain ⟨entries, hte, hout, hflat, htot, hinv⟩ := runLoop_allDrop hproj1 hrest
      rw [hs1eq, flushFullBatch_out] at hout
      rw [hs1eq, flushFullBatch_flatten] at hflat
      rw [hs1eq, flushFullBatch_total] at htot
      refine ⟨0, getReingestionRecord rr :: entries, by simp, ?_, ?_, Or.inl rfl, ?_, ?_, ?_⟩
      · simp [tableEntries, hrr, hte]
      · rw [hout]; simp
      · rw [hflat]; simp
      · rw [htot]; simp; omega
      · intro h1 h2
        have hpre : (∀ b ∈ s1.putRecordBatches, b.length = 500) ∧
            s1.recordsToReingest.length < 500 := by
          rw [hs1eq]
          exact flushFullBatch_inv (by simp; omega) (by simpa using h2)
        exact hinv hpre.2 hpre.1
    · -- the record fits: it is kept and the loop continues
      obtain ⟨k, entries, hk, hte, hout, hsum, hflat, htot, hinv⟩ := ih hrest
      have hproj1 : s1.projectedSize = s.projectedSize + (d.length + r.recordId.length) := by
        rw [hs1eq, flushFullBatch_projectedSize]
      have hout1 : s1.out = s.out ++ [r] := by rw [hs1eq, flushFullBatch_out]
      have hflat1 : s1.putRecordBatches.flatten ++ s1.recordsToReingest =
          s.putRecordBatches.flatten ++ s.recordsToReingest := by
        rw [hs1eq, flushFullBatch_flatten]
      have htot1 : s1.totalRecordsToBeReingested = s.totalRecordsToBeReingested := by
        rw [hs1eq, flushFullBatch_total]
      have hcontr : contribution r = d.length + r.recordId.length := by
        simp [contribution, hd]
      refine ⟨k + 1, entries, by simpa using Nat.succ_le_succ hk, by simpa using hte, ?_, ?_, ?_, ?_, ?_⟩
      · rw [hout, hout1]; simp
      · right
        rw [List.take_succ_cons, List.map_cons, List.sum_cons, hcontr]
        rcases hsum with rfl | hsum
        · simpa using hle
        · rw [hproj1] at hsum
          omega
      · rw [hflat, hflat1]
      · rw [htot, htot1]; simp
      · intro h1 h2
        have hpre : (∀ b ∈ s1.putRecordBatches, b.length = 500) ∧
            s1.recordsToReingest.length < 500 := by
          rw [hs1eq]
          exact flushFullBatch_inv (by simp; omega) (by simpa using h2)
        exact hinv hpre.2 hpre.1

/-! ### Decomposition of the handler -/

theorem lambda_handler_elim {c : Codec} {sink : Sink FirehoseRecord} {event : Event}
    {res : HandlerResult} (h : lambda_handler c sink event = some res) :
    ∃ ts table st, processRecords c event.records = some ts ∧
      buildTable c event.records = some table ∧
      runLoop table initialState ts = some st ∧
      res.records = st.out := by
  simp only [lambda_handler, bind, Option.bind_eq_some, pure, Option.some.injEq] at h
  obtain ⟨reg, -, sn, -, ts, hts, table, htable, st, hst, u, -, hres⟩ := h
  exact ⟨ts, table, st, hts, htable, hst, by rw [← hres]⟩

/-- The returned record list is the untouched prefix of the transformer
output followed by the drop-marked suffix, with the kept prefix's cumulative
contribution within the ceiling. -/
theorem handler_shape {c : Codec} {sink : Sink FirehoseRecord} {event : Event}
    {res : HandlerResult} (h : lambda_handler c sink event = some res) :
    ∃ ts k, processRecords c event.records = some ts ∧ k ≤ ts.length ∧
      res.records = ts.take k ++ (ts.drop k).map dropMark ∧
      (k = 0 ∨ ((ts.take k).map contribution).sum ≤ 6000000) := by
  obtain ⟨ts, table, st, hts, htable, hst, hres⟩ := lambda_handler_elim h
  obtain ⟨k, entries, hk, -, hout, hsum, -, -, -⟩ := runLoop_split hst
  refine ⟨ts, k, hts, hk, ?_, ?_⟩
  · rw [hres, hout]; simp [initialState]
  · rcases hsum with rfl | hsum
    · exact Or.inl rfl
    · right; simpa [initialState] using hsum

/-! ### Auxiliary list lemmas for the claim statements -/

theorem map_eq_map_elim {α β γ : Type} {f : α → γ} {g : β → γ} {l1 : List α} {l2 : List β}
    (h : l1.map f = l2.map g) :
    l1.length = l2.length ∧ ∀ i (h1 : i < l1.length) (h2 : i < l2.length),
      f (l1.get ⟨i, h1⟩) = g (l2.get ⟨i, h2⟩) := by
  constructor
  · have := congrArg List.length h
    simpa using this
  · intro i h1 h2
    have h4 := congrArg (fun l => l[i]?) h
    simp only [List.getElem?_map, List.getElem?_eq_getElem h1,
      List.getElem?_eq_getElem h2, Option.map_some'] at h4
    simpa using h4

theorem append_shape_dropped {A B : List TransformedRecord}
    (hA : ∀ t ∈ A, t.result = "Ok") (hB : ∀ t ∈ B, t.result = "Dropped") :
    ∀ i j (hi : i < (A ++ B).length) (hj : j < (A ++ B).length), i < j →
      ((A ++ B).get ⟨i, hi⟩).result = "Dropped" →
      ((A ++ B).get ⟨j, hj⟩).result = "Dropped" := by
  intro i j hi hj hij hdrop
  simp only [List.get_eq_getElem] at hdrop ⊢
  rcases Nat.lt_or_ge j A.length with hjA | hjA
  · exfalso
    have hiA : i < A.length := Nat.lt_trans hij hjA
    rw [List.getElem_append_left hiA] at hdrop
    have := hA _ (List.getElem_mem hiA)
    rw [this] at hdrop
    simp at hdrop
  · rw [List.getElem_append_right hjA]
    exact hB _ (List.getElem_mem _)

/-! ### The claims about the returned record list -/

/-- C1: for every input batch on which the handler returns, the returned
record list has the same length as the input list, and the record at every
position `i` carries the same `recordId` as the input record at position
`i` — one output record per input record, same id, same order, regardless
of which records were dropped. -/
theorem claim_output_matches_input {c : Codec} {sink : Sink FirehoseRecord}
    {event : Event} {res : HandlerResult} (h : lambda_handler c sink event = some res) :
    res.records.length = event.records.length ∧
      ∀ i (h1 : i < res.records.length) (h2 : i < event.records.length),
        (res.records.get ⟨i, h1⟩).recordId = (event.records.get ⟨i, h2⟩).recordId := by
  obtain ⟨ts, k, hts, hk, hshape, -⟩ := handler_shape h
  have hts_map := (processRecords_spec hts).1
  have hmap : res.records.map TransformedRecord.recordId =
      event.records.map InputRecord.recordId := by
    rw [hshape, List.map_append, List.map_map]
    have : (TransformedRecord.recordId ∘ dropMark) = TransformedRecord.recordId := by
      funext t; rfl
    rw [this, ← List.map_append, List.take_append_drop, hts_map]
  exact map_eq_map_elim hmap

/-- C3: dropping is monotonic in position — if the record at index `i` of
the returned batch is marked `Dropped`, every record at an index `j > i` is
also marked `Dropped`, regardless of the later record's own size. -/
theorem claim_drop_monotonic {c : Codec} {sink : Sink FirehoseRecord}
    {event : Event} {res : HandlerResult} (h : lambda_handler c sink event = some res) :
    ∀ i j (hi : i < res.records.length) (hj : j < res.records.length), i < j →
      (res.records.get ⟨i, hi⟩).result = "Dropped" →
      (res.records.get ⟨j, hj⟩).result = "Dropped" := by
  obtain ⟨ts, k, hts, hk, hshape, -⟩ := handler_shape h
  have hOk := fun t ht => ((processRecords_spec hts).2 t ht).1
  have hA : ∀ t ∈ ts.take k, t.result = "Ok" :=
    fun t ht => hOk t (List.take_subset k ts ht)
  have hB : ∀ t ∈ (ts.drop k).map dropMark, t.result = "Dropped" := by
    intro t ht
    obtain ⟨u, -, rfl⟩ := List.mem_map.mp ht
    rfl
  have := append_shape_dropped hA hB
  rw [← hshape] at this
  exact this

/-- C4: after the size-accounting loop, the cumulative size of the records
not marked `Dropped` — the sum of `len(payload) + len(recordId)` — never
exceeds the 6,000,000-byte ceiling at all (a fortiori, never by more than
the size of one additional record: the accounting is tail-drop, not
best-fit packing). -/
theorem claim_size_ceiling {c : Codec} {sink : Sink FirehoseRecord}
    {event : Event} {res : HandlerResult} (h : lambda_handler c sink event = some res) :
    ((res.records.filter fun t => t.result != "Dropped").map contribution).sum
      ≤ 6000000 := by
  obtain ⟨ts, k, hts, hk, hshape, hsum⟩ := handler_shape h
  have hOk := fun t ht => ((processRecords_spec hts).2 t ht).1
  have hfilterA : (ts.take k).filter (fun t => t.result != "Dropped") = ts.take k := by
    rw [List.filter_eq_self]
    intro t ht
    rw [hOk t (List.take_subset k ts ht)]
    rfl
  have hfilterB : ((ts.drop k).map dropMark).filter (fun t => t.result != "Dropped") = [] := by
    rw [List.filter_eq_nil_iff]
    intro t ht
    obtain ⟨u, -, rfl⟩ := List.mem_map.mp ht
    simp [dropMark]
  rw [hshape, List.filter_append, hfilterA, hfilterB, List.append_nil]
  rcases hsum with rfl | hsum
  · simp
  · exact hsum

/-- C10: every record of a normally returned batch has result `Ok` or
`Dropped`; the `ProcessingFailed` status is never assigned on any path. -/
theorem claim_no_processing_failed {c : Codec} {sink : Sink FirehoseRecord}
    {event : Event} {res : HandlerResult} (h : lambda_handler c sink event = some res) :
    ∀ t ∈ res.records, t.result = "Ok" ∨ t.result = "Dropped" := by
  obtain ⟨ts, k, hts, hk, hshape, -⟩ := handler_shape h
  have hOk := fun t ht => ((processRecords_spec hts).2 t ht).1
  intro t ht
  rw [hshape] at ht
  rcases List.mem_append.mp ht with ht | ht
  · exact Or.inl (hOk t (List.take_subset k ts ht))
  · obtain ⟨u, -, rfl⟩ := List.mem_map.mp ht
    exact Or.inr rfl

/-- C9: a record whose payload fails to decode (malformed base64, malformed
JSON, or missing `message` field — any failure of the per-record transform)
makes the whole invocation fail: the error propagates uncaught, is never
converted into a per-record `ProcessingFailed` status, and no partial record
list is returned. -/
theorem claim_decode_error_fatal {c : Codec} {sink : Sink FirehoseRecord} {event : Event}
    {r : InputRecord} (hmem : r ∈ event.records) (hfail : processRecord c r = none) :
    lambda_handler c sink event = none := by
  have hnone := processRecords_none hmem hfail
  unfold lambda_handler
  cases h3 : (splitOnChar ':' event.deliveryStreamArn)[3]? with
  | none => simp [bind, h3]
  | some reg =>
    cases h1 : (splitOnChar '/' event.deliveryStreamArn)[1]? with
    | none => simp [bind, h3, h1]
    | some sn => simp [bind, h3, h1, hnone]

/-! ### Grouping lemmas -/

theorem flatten_length_const {L : List (List FirehoseRecord)}
    (h : ∀ b ∈ L, b.length = 500) : L.flatten.length = 500 * L.length := by
  induction L with
  | nil => rfl
  | cons b rest ih =>
    have hb := h b (List.mem_cons_self b rest)
    have hr := ih fun b hb => h b (List.mem_cons_of_mem _ hb)
    simp only [List.flatten_cons, List.length_append, List.length_cons, hb, hr]
    ring

theorem finalBatches_flatten (s : LoopState) :
    (finalBatches s).flatten = s.putRecordBatches.flatten ++ s.recordsToReingest := by
  unfold finalBatches
  rcases hr : s.recordsToReingest with - | ⟨x, rest⟩
  · simp
  · simp [List.flatten_append]

/-- C7: the batcher emits exactly `ceil(flaggedCount / 500)` groups: all
groups except possibly the last have exactly 500 entries, the last carries
the remainder, the concatenation of the groups is the ordered sequence of
re-ingestion entries of the dropped tail (order preserved across and within
groups), and zero groups are emitted when nothing was flagged. -/
theorem claim_grouping {table : List (String × ReingestionRecord)}
    {ts : List TransformedRecord} {st : LoopState}
    (hst : runSizeLoop table ts = some st) :
    (finalBatches st).length = (st.totalRecordsToBeReingested + 499) / 500 ∧
    (∀ b ∈ (finalBatches st).dropLast, b.length = 500) ∧
    (st.totalRecordsToBeReingested = 0 → finalBatches st = []) ∧
    (finalBatches st).flatten.length = st.totalRecordsToBeReingested ∧
    (∀ hne : finalBatches st ≠ [],
      ((finalBatches st).getLast hne).length =
        st.totalRecordsToBeReingested - 500 * ((finalBatches st).length - 1)) ∧
    ∃ k, tableEntries table (ts.drop k) = some ((finalBatches st).flatten) := by
  obtain ⟨k, entries, hk, hte, -, -, hflat, htot, hinv⟩ := runLoop_split hst
  simp only [initialState] at hflat htot hinv
  have hinv2 := hinv (by simp) (by simp)
  have hall : ∀ b ∈ st.putRecordBatches, b.length = 500 := hinv2.1
  have hrlt : st.recordsToReingest.length < 500 := hinv2.2
  simp only [List.nil_append, List.flatten_nil] at hflat
  have hentlen : entries.length = ts.length - k := by
    rw [tableEntries_length hte, List.length_drop]
  have hn : st.totalRecordsToBeReingested = ts.length - k := by omega
  have hlen500 : 500 * st.putRecordBatches.length + st.recordsToReingest.length =
      st.totalRecordsToBeReingested := by
    have := congrArg List.length hflat
    simp only [List.length_append, flatten_length_const hall] at this
    omega
  have hffl : (finalBatches st).flatten = entries := by
    rw [finalBatches_flatten, hflat]
  have hfllen : (finalBatches st).flatten.length = st.totalRecordsToBeReingested := by
    rw [hffl]; omega
  by_cases hr : st.recordsToReingest = []
  · -- no partial last group: the groups are exactly the full batches
    have hfb : finalBatches st = st.putRecordBatches := by
      unfold finalBatches; rw [hr]; simp
    rw [hr] at hlen500
    simp only [List.length_nil, Nat.add_zero] at hlen500
    refine ⟨?_, ?_, ?_, hfllen, ?_, ⟨k, by rw [hffl]; exact hte⟩⟩
    · rw [hfb]; omega
    · intro b hb
      exact hall b ((List.dropLast_sublist _).subset (hfb ▸ hb))
    · intro h0
      rw [hfb]
      have : st.putRecordBatches.length = 0 := by omega
      exact List.length_eq_zero.mp this
    · intro hne
      have hmem : (finalBatches st).getLast hne ∈ st.putRecordBatches := by
        rw [← hfb]
        exact List.getLast_mem hne
      have h500 := hall _ hmem
      have hlen : (finalBatches st).length = st.putRecordBatches.length := by rw [hfb]
      have hm : 0 < st.putRecordBatches.length := by
        apply List.length_pos.mpr
        rw [← hfb]
        exact hne
      rw [h500, hlen]
      omega
  · -- a partial last group carries the remainder
    have hie : st.recordsToReingest.isEmpty = false := by
      simpa [List.isEmpty_iff] using hr
    have hfb : finalBatches st = st.putRecordBatches ++ [st.recordsToReingest] := by
      unfold finalBatches; rw [hie]; simp
    have hrpos : 0 < st.recordsToReingest.length := List.length_pos.mpr hr
    refine ⟨?_, ?_, ?_, hfllen, ?_, ⟨k, by rw [hffl]; exact hte⟩⟩
    · rw [hfb]; simp only [List.length_append, List.length_cons, List.length_nil]; omega
    · intro b hb
      rw [hfb, List.dropLast_concat] at hb
      exact hall b hb
    · intro h0
      exact absurd h0 (by omega)
    · intro hne
      have h1 : (finalBatches st).getLast? = some ((finalBatches st).getLast hne) :=
        List.getLast?_eq_getLast _ hne
      have h2 : (finalBatches st).getLast? = some st.recordsToReingest := by
        rw [hfb]
        exact List.getLast?_concat _
      have hgl : (finalBatches st).getLast hne = st.recordsToReingest :=
        Option.some.inj (h1.symm.trans h2)
      have hlen : (finalBatches st).length = st.putRecordBatches.length + 1 := by
        rw [hfb]; simp
      rw [hgl, hlen]
      omega

/-! ### Per-index access to the prefix-suffix shape -/

theorem shape_length {ts : List TransformedRecord} {k : Nat} (hk : k ≤ ts.length) :
    (ts.take k ++ (ts.drop k).map dropMark).length = ts.length := by
  simp only [List.length_append, List.length_take, List.length_map, List.length_drop]
  omega

theorem shape_get_lt {ts : List TransformedRecord} {k : Nat} (hk : k ≤ ts.length)
    {i : Nat} (h1 : i < k) (hi : i < (ts.take k ++ (ts.drop k).map dropMark).length)
    (hi2 : i < ts.length) :
    (ts.take k ++ (ts.drop k).map dropMark).get ⟨i, hi⟩ = ts.get ⟨i, hi2⟩ := by
  simp only [List.get_eq_getElem]
  have hiA : i < (ts.take k).length := by
    simp only [List.length_take]
    omega
  rw [List.getElem_append_left hiA]
  exact List.getElem_take ts

theorem shape_get_ge {ts : List TransformedRecord} {k : Nat} (hk : k ≤ ts.length)
    {i : Nat} (h2 : k ≤ i) (hi : i < (ts.take k ++ (ts.drop k).map dropMark).length)
    (hi2 : i < ts.length) :
    (ts.take k ++ (ts.drop k).map dropMark).get ⟨i, hi⟩ = dropMark (ts.get ⟨i, hi2⟩) := by
  simp only [List.get_eq_getElem]
  have hlenA : (ts.take k).length = k := by
    simp only [List.length_take]
    omega
  rw [List.getElem_append_right (by omega)]
  rw [List.getElem_map]
  congr 1
  rw [List.getElem_drop]
  congr 1
  omega

/-- C8: for every record flagged for re-ingestion, the entry submitted to
the sink carries the base64-decoded bytes of that record's *original* input
payload (the `dataByRecordId` binding built from `event['records']`, not the
transformed payload), and in that same iteration the record's transformed
payload is deleted and its status set to `Dropped` — both mutations are
visible in the returned batch.  Input ids are assumed unique within the
batch, per the data model. -/
theorem claim_reingestion_payloads {c : Codec} {sink : Sink FirehoseRecord} {event : Event}
    {res : HandlerResult} {ts : List TransformedRecord}
    {table : List (String × ReingestionRecord)} {st : LoopState}
    (h : lambda_handler c sink event = some res)
    (hts : processRecords c event.records = some ts)
    (htable : buildTable c event.records = some table)
    (hst : runSizeLoop table ts = some st)
    (hnodup : (event.records.map InputRecord.recordId).Nodup) :
    res.records = st.out ∧
    List.Forall₂ (fun (r : InputRecord) (p : String × ReingestionRecord) =>
      p.1 = r.recordId ∧ c.b64decode r.data = some p.2.data) event.records table ∧
    ∃ k, (∀ i (hi : i < res.records.length),
        ((res.records.get ⟨i, hi⟩).result = "Dropped" ↔ k ≤ i)) ∧
      (∀ i (hi : i < res.records.length), k ≤ i → (res.records.get ⟨i, hi⟩).data = none) ∧
      (finalBatches st).flatten = (table.drop k).map (fun p => getReingestionRecord p.2) := by
  obtain ⟨ts2, table2, st2, hts2, htable2, hst2, hres⟩ := lambda_handler_elim h
  rw [hts] at hts2
  rw [htable] at htable2
  obtain rfl : ts = ts2 := Option.some.inj hts2
  obtain rfl : table = table2 := Option.some.inj htable2
  have hst3 : runLoop table initialState ts = some st := hst
  rw [hst3] at hst2
  obtain rfl : st = st2 := Option.some.inj hst2
  obtain ⟨k, entries, hk, hte, hout, -, hflat, -, -⟩ := runLoop_split hst3
  simp only [initialState, List.nil_append, List.flatten_nil] at hout hflat
  have hforall := buildTable_spec htable
  have hkeys : table.map Prod.fst = event.records.map InputRecord.recordId :=
    buildTable_keys htable
  have hts_map : ts.map TransformedRecord.recordId = event.records.map InputRecord.recordId :=
    (processRecords_spec hts).1
  have hOk := fun t ht => ((processRecords_spec hts).2 t ht).1
  have hnodup2 : (table.map Prod.fst).Nodup := by rw [hkeys]; exact hnodup
  have hlook := lookupRecordId_mem hnodup2
  have hdropmap : (ts.drop k).map TransformedRecord.recordId =
      (table.drop k).map Prod.fst := by
    rw [List.map_drop, List.map_drop, hts_map, hkeys]
  have hte2 : tableEntries table (ts.drop k) =
      some ((table.drop k).map fun p => getReingestionRecord p.2) :=
    tableEntries_of_pairs hdropmap
      (fun p hp => hlook p (List.drop_subset k table hp))
  have hent : entries = (table.drop k).map fun p => getReingestionRecord p.2 :=
    Option.some.inj (hte.symm.trans hte2)
  have hshape : res.records = ts.take k ++ (ts.drop k).map dropMark := by
    rw [hres, hout]
  refine ⟨hres, hforall, k, ?_, ?_, ?_⟩
  · intro i hi
    have hib : i < (ts.take k ++ (ts.drop k).map dropMark).length := by
      rw [← hshape]; exact hi
    have hi2 : i < ts.length := by
      rw [← shape_length hk]; exact hib
    have hg : res.records.get ⟨i, hi⟩ =
        (ts.take k ++ (ts.drop k).map dropMark).get ⟨i, hib⟩ := by
      simp only [List.get_eq_getElem]
      exact List.getElem_of_eq hshape hi
    rcases Nat.lt_or_ge i k with hik | hik
    · have hres2 : (res.records.get ⟨i, hi⟩).result = "Ok" := by
        rw [hg, shape_get_lt hk hik hib hi2]
        exact hOk _ (List.get_mem ts i hi2)
      rw [hres2]
      simp
      omega
    · have hres2 : (res.records.get ⟨i, hi⟩).result = "Dropped" := by
        rw [hg, shape_get_ge hk hik hib hi2]
        rfl
      rw [hres2]
      simp
      omega
  · intro i hi hik
    have hib : i < (ts.take k ++ (ts.drop k).map dropMark).length := by
      rw [← hshape]; exact hi
    have hi2 : i < ts.length := by
      rw [← shape_length hk]; exact hib
    have hg : res.records.get ⟨i, hi⟩ =
        (ts.take k ++ (ts.drop k).map dropMark).get ⟨i, hib⟩ := by
      simp only [List.get_eq_getElem]
      exact List.getElem_of_eq hshape hi
    rw [hg, shape_get_ge hk hik hib hi2]
    rfl
  · rw [finalBatches_flatten, hflat, hent]

/-! ### Lemmas about the delivery retrier -/

theorem collectFailures_eq_filter {α : Type} :
    ∀ (rs : List α) (resps : List (Option String)),
      (collectFailures rs resps).2 =
        ((rs.zip resps).filter fun p => hasErrorCode p.2).map Prod.fst := by
  intro rs
  induction rs with
  | nil => intro resps; cases resps <;> rfl
  | cons r rest ih =>
    intro resps
    cases resps with
    | nil => rfl
    | cons res rrest =>
      simp only [collectFailures, List.zip_cons_cons, List.filter_cons]
      by_cases hc : hasErrorCode res
      · simp [hc, ih]
      · simp [hc, ih]

/-- One unfolding of the retrier in the retry branch: when the failed subset
is nonempty and attempts remain, the function recurses on exactly the failed
subset with the attempt counter incremented (one more sink call made). -/
theorem putRecords_retry_step {α : Type} (sink : Sink α) (streamName : String)
    (records : List α) (attemptsMade maxAttempts : Nat)
    (hfail : (attemptFailed sink streamName attemptsMade records).1 ≠ [])
    (hlt : attemptsMade + 1 < maxAttempts) :
    putRecordsToFirehoseStream sink streamName records attemptsMade maxAttempts =
      ((putRecordsToFirehoseStream sink streamName
          (attemptFailed sink streamName attemptsMade records).1
          (attemptsMade + 1) maxAttempts).1 + 1,
       (putRecordsToFirehoseStream sink streamName
          (attemptFailed sink streamName attemptsMade records).1
          (attemptsMade + 1) maxAttempts).2) := by
  rw [putRecordsToFirehoseStream]
  rw [if_pos (List.length_pos.mpr hfail), dif_pos hlt]

/-- Retry-bound induction: from any attempt number below the bound, the
retrier either returns silently or makes exactly `maxAttempts -
attemptsMade` further sink calls and raises the exhausted-retries error
built from the final attempt's error message. -/
theorem putRecords_bound {α : Type} (sink : Sink α) (streamName : String)
    (maxAttempts : Nat) :
    ∀ (fuel attemptsMade : Nat) (records : List α),
      attemptsMade < maxAttempts → maxAttempts - attemptsMade = fuel →
      (putRecordsToFirehoseStream sink streamName records attemptsMade maxAttempts).2
          = none ∨
      ((putRecordsToFirehoseStream sink streamName records attemptsMade maxAttempts).1 =
          maxAttempts - attemptsMade ∧
        (putRecordsToFirehoseStream sink streamName records attemptsMade maxAttempts).2 =
          some ("Could not put records after " ++ toString maxAttempts ++ " attempts. " ++
            (attemptFailed sink streamName (maxAttempts - 1)
              (failedChain sink streamName attemptsMade records
                (maxAttempts - 1 - attemptsMade))).2)) := by
  intro fuel
  induction fuel with
  | zero => intro a rs ha hf; omega
  | succ n ih =>
    intro a rs ha hf
    rw [putRecordsToFirehoseStream]
    by_cases hempty : (attemptFailed sink streamName a rs).1.length = 0
    · left
      rw [if_neg (by omega)]
    · have hpos : 0 < (attemptFailed sink streamName a rs).1.length :=
        Nat.pos_of_ne_zero hempty
      rw [if_pos hpos]
      by_cases hlt : a + 1 < maxAttempts
      · rw [dif_pos hlt]
        rcases ih (a + 1) (attemptFailed sink streamName a rs).1 hlt (by omega) with
          h1 | ⟨h1, h2⟩
        · left
          exact h1
        · right
          constructor
          · show _ + 1 = _
            rw [h1]
            omega
          · show (putRecordsToFirehoseStream sink streamName
                (attemptFailed sink streamName a rs).1 (a + 1) maxAttempts).2 = _
            rw [h2]
            have hchain : failedChain sink streamName a rs (maxAttempts - 1 - a) =
                failedChain sink streamName (a + 1)
                  (attemptFailed sink streamName a rs).1 (maxAttempts - 1 - (a + 1)) := by
              have hm : maxAttempts - 1 - a = (maxAttempts - 1 - (a + 1)) + 1 := by omega
              rw [hm]
              rfl
            rw [hchain]
      · rw [dif_neg hlt]
        right
        refine ⟨by simp; omega, ?_⟩
        have ha1 : maxAttempts - 1 = a := by omega
        have h0 : maxAttempts - 1 - a = 0 := by omega
        rw [h0, ha1]
        rfl

/-- C2: for every group of entries and every `maxAttempts ≥ 1`, delivery
starting at `attemptsMade = 0` either returns silently, or raises the
exhausted-retries `RuntimeError` having made exactly `maxAttempts` sink
calls — never more — with the message carrying the `maxAttempts` value and
the final attempt's cumulative error text (the concatenated individual
error codes, or the raised exception's message). -/
theorem claim_retry_bound {α : Type} (sink : Sink α) (streamName : String)
    (records : List α) (maxAttempts : Nat) (hmax : 1 ≤ maxAttempts) :
    (putRecordsToFirehoseStream sink streamName records 0 maxAttempts).2 = none ∨
    ((putRecordsToFirehoseStream sink streamName records 0 maxAttempts).1 = maxAttempts ∧
      (putRecordsToFirehoseStream sink streamName records 0 maxAttempts).2 =
        some ("Could not put records after " ++ toString maxAttempts ++ " attempts. " ++
          (attemptFailed sink streamName (maxAttempts - 1)
            (failedChain sink streamName 0 records (maxAttempts - 1))).2)) := by
  have h := putRecords_bound sink streamName maxAttempts (maxAttempts - 0) 0 records
    (by omega) (by omega)
  simpa using h

/-- C5: when the sink call returns with a positive failed-count, the
recomputed failed subset is exactly the entries whose aligned response
carries a non-empty `ErrorCode`, in their original relative order (a
sublist), and only that subset is resubmitted on the next attempt. -/
theorem claim_failed_subset {α : Type} {sink : Sink α} {streamName : String}
    {attempt : Nat} {records : List α} {fpc : Nat} {resps : List (Option String)}
    (hok : sink streamName attempt records = SinkResp.ok fpc resps)
    (hfpc : 0 < fpc) (hlen : resps.length = records.length) :
    (attemptFailed sink streamName attempt records).1 =
      ((records.zip resps).filter fun p => hasErrorCode p.2).map Prod.fst ∧
    List.Sublist (attemptFailed sink streamName attempt records).1 records ∧
    ∀ maxAttempts, attempt + 1 < maxAttempts →
      (attemptFailed sink streamName attempt records).1 ≠ [] →
      putRecordsToFirehoseStream sink streamName records attempt maxAttempts =
        ((putRecordsToFirehoseStream sink streamName
            (attemptFailed sink streamName attempt records).1
            (attempt + 1) maxAttempts).1 + 1,
         (putRecordsToFirehoseStream sink streamName
            (attemptFailed sink streamName attempt records).1
            (attempt + 1) maxAttempts).2) := by
  have hf : (attemptFailed sink streamName attempt records).1 =
      ((records.zip resps).filter fun p => hasErrorCode p.2).map Prod.fst := by
    unfold attemptFailed
    rw [hok]
    simp only [if_pos hfpc]
    exact collectFailures_eq_filter records resps
  refine ⟨hf, ?_,
    fun maxAttempts hlt hne =>
      putRecords_retry_step sink streamName records attempt maxAttempts hne hlt⟩
  rw [hf]
  have h1 := (List.filter_sublist (l := records.zip resps)
    (p := fun p => hasErrorCode p.2)).map Prod.fst
  rw [List.map_fst_zip records resps (by omega)] at h1
  exact h1

/-- C6: when the sink call itself raises, the entire submitted entries list
becomes the failed subset and the exception's message the error message,
and (attempts permitting) the whole list is resubmitted through the retry
path instead of failing immediately. -/
theorem claim_transport_error {α : Type} {sink : Sink α} {streamName : String}
    {attempt : Nat} {records : List α} {e : String}
    (hraise : sink streamName attempt records = SinkResp.raise e) :
    attemptFailed sink streamName attempt records = (records, e) ∧
    ∀ maxAttempts, attempt + 1 < maxAttempts → records ≠ [] →
      putRecordsToFirehoseStream sink streamName records attempt maxAttempts =
        ((putRecordsToFirehoseStream sink streamName records
            (attempt + 1) maxAttempts).1 + 1,
         (putRecordsToFirehoseStream sink streamName records
            (attempt + 1) maxAttempts).2) := by
  have hfail : attemptFailed sink streamName attempt records = (records, e) := by
    unfold attemptFailed
    rw [hraise]
  refine ⟨hfail, fun maxAttempts hlt hne => ?_⟩
  have h := putRecords_retry_step sink streamName records attempt maxAttempts
    (by rw [hfail]; exact hne) hlt
  simpa [hfail] using h

/-! ### Witnesses: each claim theorem applied at a concrete input -/

/-- Witness for C1 at the two-record test event. -/
theorem claim_output_matches_input_witness :
    (lambda_handler testCodec nullSink testEvent = some testResult) ∧
    (testResult.records.length = testEvent.records.length ∧
      ∀ i (h1 : i < testResult.records.length) (h2 : i < testEvent.records.length),
        (testResult.records.get ⟨i, h1⟩).recordId =
          (testEvent.records.get ⟨i, h2⟩).recordId) :=
  ⟨rfl, claim_output_matches_input
    (rfl : lambda_handler testCodec nullSink testEvent = some testResult)⟩

/-- Witness for C2: a sink that always raises, two attempts allowed. -/
theorem claim_retry_bound_witness :
    1 ≤ 2 ∧
    ((putRecordsToFirehoseStream raiseSink "s" [entryA] 0 2).2 = none ∨
     ((putRecordsToFirehoseStream raiseSink "s" [entryA] 0 2).1 = 2 ∧
      (putRecordsToFirehoseStream raiseSink "s" [entryA] 0 2).2 =
        some ("Could not put records after " ++ toString 2 ++ " attempts. " ++
          (attemptFailed raiseSink "s" (2 - 1)
            (failedChain raiseSink "s" 0 [entryA] (2 - 1))).2))) :=
  ⟨by decide, claim_retry_bound raiseSink "s" [entryA] 2 (by decide)⟩

/-- Witness for C3 at the two-record test event. -/
theorem claim_drop_monotonic_witness :
    (lambda_handler testCodec nullSink testEvent = some testResult) ∧
    (∀ i j (hi : i < testResult.records.length) (hj : j < testResult.records.length),
      i < j →
      (testResult.records.get ⟨i, hi⟩).result = "Dropped" →
      (testResult.records.get ⟨j, hj⟩).result = "Dropped") :=
  ⟨rfl, claim_drop_monotonic
    (rfl : lambda_handler testCodec nullSink testEvent = some testResult)⟩

/-- Witness for C4 at the two-record test event. -/
theorem claim_size_ceiling_witness :
    (lambda_handler testCodec nullSink testEvent = some testResult) ∧
    ((testResult.records.filter fun t => t.result != "Dropped").map contribution).sum
      ≤ 6000000 :=
  ⟨rfl, claim_size_ceiling
    (rfl : lambda_handler testCodec nullSink testEvent = some testResult)⟩

/-- Witness for C5: first attempt fails one of two entries. -/
theorem claim_failed_subset_witness :
    (partialSink "s" 0 [entryA, entryB] =
        SinkResp.ok 1 [some "ServiceUnavailableException", none]) ∧
    ((attemptFailed partialSink "s" 0 [entryA, entryB]).1 =
        (([entryA, entryB].zip [some "ServiceUnavailableException", none]).filter
          fun p => hasErrorCode p.2).map Prod.fst ∧
      List.Sublist (attemptFailed partialSink "s" 0 [entryA, entryB]).1 [entryA, entryB] ∧
      ∀ maxAttempts, 0 + 1 < maxAttempts →
        (attemptFailed partialSink "s" 0 [entryA, entryB]).1 ≠ [] →
        putRecordsToFirehoseStream partialSink "s" [entryA, entryB] 0 maxAttempts =
          ((putRecordsToFirehoseStream partialSink "s"
              (attemptFailed partialSink "s" 0 [entryA, entryB]).1
              (0 + 1) maxAttempts).1 + 1,
           (putRecordsToFirehoseStream partialSink "s"
              (attemptFailed partialSink "s" 0 [entryA, entryB]).1
              (0 + 1) maxAttempts).2)) :=
  ⟨rfl, claim_failed_subset rfl (by decide) rfl⟩

/-- Witness for C6: a raising sink feeds the whole list into the retry path. -/
theorem claim_transport_error_witness :
    (raiseSink "s" 0 [entryA] = SinkResp.raise "boom") ∧
    (attemptFailed raiseSink "s" 0 [entryA] = ([entryA], "boom") ∧
      ∀ maxAttempts, 0 + 1 < maxAttempts → [entryA] ≠ ([] : List FirehoseRecord) →
        putRecordsToFirehoseStream raiseSink "s" [entryA] 0 maxAttempts =
          ((putRecordsToFirehoseStream raiseSink "s" [entryA]
              (0 + 1) maxAttempts).1 + 1,
           (putRecordsToFirehoseStream raiseSink "s" [entryA]
              (0 + 1) maxAttempts).2)) :=
  ⟨rfl, claim_transport_error rfl⟩

/-- Witness for C7 at the two-record loop run (no flagged records). -/
theorem claim_grouping_witness :
    (runSizeLoop testTable testTransformed = some testLoopState) ∧
    ((finalBatches testLoopState).length =
        (testLoopState.totalRecordsToBeReingested + 499) / 500 ∧
      (∀ b ∈ (finalBatches testLoopState).dropLast, b.length = 500) ∧
      (testLoopState.totalRecordsToBeReingested = 0 → finalBatches testLoopState = []) ∧
      (finalBatches testLoopState).flatten.length =
        testLoopState.totalRecordsToBeReingested ∧
      (∀ hne : finalBatches testLoopState ≠ [],
        ((finalBatches testLoopState).getLast hne).length =
          testLoopState.totalRecordsToBeReingested -
            500 * ((finalBatches testLoopState).length - 1)) ∧
      ∃ k, tableEntries testTable (testTransformed.drop k) =
          some ((finalBatches testLoopState).flatten)) :=
  ⟨rfl, claim_grouping (rfl : runSizeLoop testTable testTransformed = some testLoopState)⟩

/-- Witness for C8 at the two-record test event. -/
theorem claim_reingestion_payloads_witness :
    (lambda_handler testCodec nullSink testEvent = some testResult) ∧
    (testResult.records = testLoopState.out ∧
      List.Forall₂ (fun (r : InputRecord) (p : String × ReingestionRecord) =>
        p.1 = r.recordId ∧ testCodec.b64decode r.data = some p.2.data)
        testEvent.records testTable ∧
      ∃ k, (∀ i (hi : i < testResult.records.length),
          ((testResult.records.get ⟨i, hi⟩).result = "Dropped" ↔ k ≤ i)) ∧
        (∀ i (hi : i < testResult.records.length), k ≤ i →
          (testResult.records.get ⟨i, hi⟩).data = none) ∧
        (finalBatches testLoopState).flatten =
          (testTable.drop k).map fun p => getReingestionRecord p.2) :=
  ⟨rfl, claim_reingestion_payloads
    (rfl : lambda_handler testCodec nullSink testEvent = some testResult)
    (rfl : processRecords testCodec testEvent.records = some testTransformed)
    (rfl : buildTable testCodec testEvent.records = some testTable)
    (rfl : runSizeLoop testTable testTransformed = some testLoopState)
    (by decide)⟩

/-- Witness for C9: the second record of `badEvent` cannot be decoded and
the whole invocation fails. -/
theorem claim_decode_error_fatal_witness :
    ({ recordId := "id2", data := "!" } : InputRecord) ∈ badEvent.records ∧
    processRecord testCodec { recordId := "id2", data := "!" } = none ∧
    lambda_handler testCodec nullSink badEvent = none :=
  ⟨by decide, rfl, claim_decode_error_fatal
    (by decide : ({ recordId := "id2", data := "!" } : InputRecord) ∈ badEvent.records)
    (rfl : processRecord testCodec { recordId := "id2", data := "!" } = none)⟩

/-- Witness for C10 at the two-record test event. -/
theorem claim_no_processing_failed_witness :
    (lambda_handler testCodec nullSink testEvent = some testResult) ∧
    ∀ t ∈ testResult.records, t.result = "Ok" ∨ t.result = "Dropped" :=
  ⟨rfl, claim_no_processing_failed
    (rfl : lambda_handler testCodec nullSink testEvent = some testResult)⟩

end FlowlogsProcessor
